import Mathlib

/-!
Shallow embedding of the Tensor container from `include/tensor.h` (a generic
dense N-dimensional array with strided flat-buffer storage), together with
proofs about its coordinate mapping, axis-wise primitives, replication and
elementwise arithmetic.

Modelling conventions:
* C++ `int` is modelled as `Int`; C++ `%` on `int` is `Int.tmod` and `/` is
  `Int.tdiv` (truncating, as in C++).
* The element type `T` and the C++ `double` scalars are both modelled as `Rat`
  (exact arithmetic; the claims under study are about ordering and structure,
  not floating-point rounding).
* Reading `vec[i]` or `w[count]` out of range is undefined behaviour in C++;
  inside the loop bodies it is modelled with `List.getD _ 0` and the theorems
  only quantify over the valid domains.  The one read whose bounds are
  themselves under study (the seed read `vec[1]` in `max_dim`) is modelled as
  a checked access returning `none` when out of bounds.
* A failed `assert` terminates the C++ operation before any mutation; this is
  modelled by returning `none` (an `Option` result).
-/

/-- The `Tensor<T>` data model: `dim` (shape), the derived strides `offsets`,
the element count `nelem`, and the flat storage `vec`. -/
structure Tensor where
  dim : List Int
  offsets : List Int
  nelem : Int
  vec : List Rat
deriving DecidableEq

/-- `std::accumulate(dim.begin(), dim.end(), 1, std::multiplies<int>())`:
the product of all dims, folded from the left starting at 1. -/
def prodDims (dim : List Int) : Int := dim.foldl (fun a b => a * b) 1

/-- The stride computation of the constructor: `p = 1`, then for
`i = ndim-1 .. 0`: `offsets[i] = p; p *= dim[i]`.  Hence `offsets[i]` is the
product of all dims strictly to the right of position `i`. -/
def offsetsOf : List Int → List Int
  | [] => []
  | _ :: rest => prodDims rest :: offsetsOf rest

/-- The constructor `Tensor(std::vector<int> _dim)`: stores the shape, sets
`nelem` to the product of the dims, zero-initialises `vec` with `nelem`
elements (`vec.resize(nelem)` value-initialises), and derives `offsets`.
There is no validation of the shape whatsoever.  (For a negative product
`vec.resize` would be passed a negative count, which is not modelled; the
theorems below restrict to non-negative dims where needed.) -/
def mkTensor (d : List Int) : Tensor :=
  { dim := d
    offsets := offsetsOf d
    nelem := prodDims d
    vec := List.replicate (prodDims d).toNat 0 }

/-- Read an `int` array at an `int` index (valid-domain accesses only). -/
def getI (l : List Int) (i : Int) : Int := l.getD i.toNat 0

/-- Read the element buffer at an `int` index (valid-domain accesses only). -/
def getQ (l : List Rat) (i : Int) : Rat := l.getD i.toNat 0

/-- The sum `Σ offsets[i] * ix[i]` computed by `location`. -/
def locSum (os ix : List Int) : Int :=
  (List.zipWith (fun o i => o * i) os ix).foldl (fun a b => a + b) 0

/-- `location(std::vector<int> ix)`: `loc += offsets[i]*ix[i]` over all axes. -/
def location (t : Tensor) (ix : List Int) : Int := locSum t.offsets ix

/-- The loop of `index(int loc)`: for `i = ndim-1 .. 0`:
`ix = loc % dim[i]; loc = (loc-ix)/dim[i]; id[i] = ix`.  The first component
is the coordinate vector `id`, the second the final value of `loc`. -/
def indexAux : List Int → Int → List Int × Int
  | [], loc => ([], loc)
  | d :: rest, loc =>
      let p := indexAux rest loc
      let ix := Int.tmod p.2 d
      (ix :: p.1, Int.tdiv (p.2 - ix) d)

/-- `index(int loc)`: decompose a flat offset into per-axis coordinates. -/
def index (t : Tensor) (loc : Int) : List Int := (indexAux t.dim loc).1

/-- `plane(int axis, int k)`: translate `axis` (counted from the right) to the
absolute position `a = ndim-1-axis`, then collect `i + k*offsets[a]` for every
`i` in `[0, nelem)` whose coordinate on axis `a` is `0`. -/
def plane (t : Tensor) (axis k : Int) : List Int :=
  let a : Int := (t.dim.length : Int) - 1 - axis
  ((List.range t.nelem.toNat).filter
      (fun i : Nat => decide (getI (index t (i : Int)) a = 0))).map
    (fun i : Nat => (i : Int) + k * getI t.offsets a)

/-- The loop of `transform_dim`: `steps` iterations remaining, current flat
position `i`, current step `count`; each step sets
`vec[i] = binary_op(vec[i], w[count])` and advances `i` by `off`. -/
def tdGo (op : Rat → Rat → Rat) (w : List Rat) (off : Int) :
    Nat → Int → Nat → List Rat → List Rat
  | 0, _, _, vec => vec
  | steps + 1, i, count, vec =>
      tdGo op w off steps (i + off) (count + 1)
        (vec.set i.toNat (op (getQ vec i) (w.getD count 0)))

/-- `transform_dim(int loc, int axis, BinOp binary_op, std::vector<double> w)`:
asserts `w.size() == dim[ndim-1-axis]` (else WeightSizeError, modelled as
`none`), then walks `dim[a]` elements from `loc` with stride `offsets[a]`,
replacing each element by `binary_op(element, w[count])`. -/
def transform_dim (t : Tensor) (loc axis : Int) (op : Rat → Rat → Rat)
    (w : List Rat) : Option Tensor :=
  let a : Int := (t.dim.length : Int) - 1 - axis
  if (w.length : Int) = getI t.dim a then
    some { t with
           vec := tdGo op w (getI t.offsets a) (getI t.dim a).toNat loc 0 t.vec }
  else none

/-- `transform(int axis, BinOp binary_op, std::vector<double> w)`: applies
`transform_dim` to every entry point returned by `plane(axis)`. -/
def transform (t : Tensor) (axis : Int) (op : Rat → Rat → Rat)
    (w : List Rat) : Option Tensor :=
  (plane t axis 0).foldlM (fun acc loc => transform_dim acc loc axis op w) t

/-- The loop of `accumulate_dim`: `steps` iterations remaining, current flat
position `i`, current step `count`, running value `v`; each step does
`v = binary_op(v, w*vec[i])` with `w = weights[count]` when weights are
supplied and `1` otherwise. -/
def accGo (vec : List Rat) (op : Rat → Rat → Rat) (weights : List Rat)
    (off : Int) : Nat → Int → Nat → Rat → Rat
  | 0, _, _, v => v
  | steps + 1, i, count, v =>
      let w : Rat := if 0 < weights.length then weights.getD count 0 else 1
      accGo vec op weights off steps (i + off) (count + 1) (op v (w * getQ vec i))

/-- `accumulate_dim(double v0, int loc, int axis, BinOp binary_op,
std::vector<double> weights)`: asserts the weights are empty or have exactly
`dim[ndim-1-axis]` entries (else WeightSizeError, modelled as `none`), then
folds along the line.  Faithful to the source, the running value starts at
`0` (`double v = 0;` in the loop prologue, tensor.h line 203) and the `v0`
parameter is never read. -/
def accumulate_dim (t : Tensor) (v0 : Rat) (loc axis : Int)
    (op : Rat → Rat → Rat) (weights : List Rat) : Option Rat :=
  let a : Int := (t.dim.length : Int) - 1 - axis
  if weights.length = 0 ∨ (weights.length : Int) = getI t.dim a then
    some (accGo t.vec op weights (getI t.offsets a) (getI t.dim a).toNat loc 0 0)
  else none

/-- Sequential writes `dst[i] = x; dst[i+1] = x'; ...` used by the
`count++`-style output loops of `accumulate`, `repeat_inner`. -/
def writeSeq : List Rat → Nat → List Rat → List Rat
  | dst, _, [] => dst
  | dst, i, x :: rest => writeSeq (dst.set i x) (i + 1) rest

/-- `accumulate(T v0, int axis, BinOp binary_op, std::vector<double> weights)`:
builds a new Tensor whose shape is `dim` with position `ndim-1-axis` erased,
then writes `accumulate_dim(v0, locs[i], axis, ...)` into output slot `i` for
every entry point of `plane(axis)`. -/
def accumulate (t : Tensor) (v0 : Rat) (axis : Int) (op : Rat → Rat → Rat)
    (weights : List Rat) : Option Tensor :=
  let dimNew := t.dim.eraseIdx ((t.dim.length : Int) - 1 - axis).toNat
  let tens := mkTensor dimNew
  match (plane t axis 0).mapM
      (fun loc => accumulate_dim t v0 loc axis op weights) with
  | none => none
  | some vals => some { tens with vec := writeSeq tens.vec 0 vals }

/-- `max_dim(int axis)`: `T v0 = vec[1];` then accumulate with `std::max`.
The seed read `vec[1]` is modelled as a checked access: when offset `1` is
outside the buffer (undefined behaviour in C++) the model returns `none`. -/
def max_dim (t : Tensor) (axis : Int) : Option Tensor :=
  (t.vec[1]?).bind (fun v0 => accumulate t v0 axis (fun a b => max a b) [])

/-- `repeat_inner(int n) const`: new shape `dim ++ [n]`; the nested loop
writes, for `i = 0 .. nelem-1` and `j = 0 .. n-1`, the value `vec[i]` to
consecutive output slots (`tout.vec[count++] = vec[i]`). -/
def repeat_inner (t : Tensor) (n : Int) : Tensor :=
  let tout := mkTensor (t.dim ++ [n])
  let vals := (List.range t.nelem.toNat).flatMap
    (fun i => List.replicate n.toNat (t.vec.getD i 0))
  { tout with vec := writeSeq tout.vec 0 vals }

/-- Tensor-tensor `+` / `+=`: `assert(dim == rhs.dim)` (else ShapeMismatchError,
modelled as `none`, produced before any element is written), then elementwise
addition in storage order.  The pure `operator+` copies the left operand and
applies `+=`, so both forms share this model. -/
def addT (a b : Tensor) : Option Tensor :=
  if a.dim = b.dim then
    some { a with vec := List.zipWith (fun x y => x + y) a.vec b.vec }
  else none

/-- Tensor-tensor `-` / `-=` (same structure as `addT`, with
`std::minus<double>`). -/
def subT (a b : Tensor) : Option Tensor :=
  if a.dim = b.dim then
    some { a with vec := List.zipWith (fun x y => x - y) a.vec b.vec }
  else none

/-- Tensor-tensor `*` / `*=` (same structure as `addT`). -/
def mulT (a b : Tensor) : Option Tensor :=
  if a.dim = b.dim then
    some { a with vec := List.zipWith (fun x y => x * y) a.vec b.vec }
  else none

/-- Tensor-scalar `+=` (and the pure `operator+` which copies then mutates):
every element becomes `x + s`. -/
def addS (t : Tensor) (s : Rat) : Tensor :=
  { t with vec := t.vec.map (fun x => x + s) }

/-- Tensor-scalar `-=` / `operator-`: every element becomes `x - s`. -/
def subS (t : Tensor) (s : Rat) : Tensor :=
  { t with vec := t.vec.map (fun x => x - s) }

/-- Tensor-scalar `*=` / `operator*`: every element becomes `x * s`. -/
def mulS (t : Tensor) (s : Rat) : Tensor :=
  { t with vec := t.vec.map (fun x => x * s) }

/-- Tensor-scalar `/=` / `operator/`: every element becomes `x / s`. -/
def divS (t : Tensor) (s : Rat) : Tensor :=
  { t with vec := t.vec.map (fun x => x / s) }

/-- `operator+(S s, Tensor<T> t)`: `return t+s;` (tensor.h lines 364-367). -/
def scalar_plus_tensor (s : Rat) (t : Tensor) : Tensor := addS t s

/-- `operator-(S s, Tensor<T> t)`: the source (tensor.h lines 369-372) does
`return t-s;`, i.e. it applies tensor-minus-scalar to the operands of
scalar-minus-tensor. -/
def scalar_minus_tensor (s : Rat) (t : Tensor) : Tensor := subS t s

/-- `operator*(S s, Tensor<T> t)`: `return t*s;` (tensor.h lines 374-377). -/
def scalar_times_tensor (s : Rat) (t : Tensor) : Tensor := mulS t s

/-- Well-formedness: the derived fields are the ones the constructor computes
from `dim`, and the buffer has exactly `nelem` elements. -/
def WF (t : Tensor) : Prop :=
  t.offsets = offsetsOf t.dim ∧ t.nelem = prodDims t.dim ∧
    t.vec.length = t.nelem.toNat

instance (t : Tensor) : Decidable (WF t) := by unfold WF; infer_instance

/-- All dims strictly positive (the documented precondition of every
axis-indexed operation). -/
def dimsPos (t : Tensor) : Prop := ∀ d ∈ t.dim, 0 < d

instance (t : Tensor) : Decidable (dimsPos t) := by unfold dimsPos; infer_instance

/-- Coordinate tuple validity: same length as the shape and every entry in
`[0, dim[i])`. -/
def validCoordsB : List Int → List Int → Bool
  | [], [] => true
  | d :: ds, c :: cs => decide (0 ≤ c) && decide (c < d) && validCoordsB ds cs
  | _, _ => false

/-- Shape-and-size equality of two tensors: same `dim`, `offsets`, `nelem`,
and same buffer length. -/
def sameShapeB (a b : Tensor) : Bool :=
  decide (a.dim = b.dim) && decide (a.offsets = b.offsets) &&
    decide (a.nelem = b.nelem) && decide (a.vec.length = b.vec.length)

/-- The non-commutative example operation of the spec: `f(acc, w) = acc*2 + w`. -/
def c3op : Rat → Rat → Rat := fun acc w => acc * 2 + w

/-- A one-element tensor holding the value 10, for exercising
`accumulate_dim`. -/
def tensorC1 : Tensor := { mkTensor [1] with vec := [10] }

/-- A one-element tensor holding the value 3, for exercising scalar-left
subtraction. -/
def tensorC2 : Tensor := { mkTensor [1] with vec := [3] }

/-- A two-element tensor holding `[7, 9]`, for exercising `repeat_inner`. -/
def tensorC8 : Tensor := { mkTensor [2] with vec := [7, 9] }

/-! ### Basic algebraic facts about the folded products and sums -/

theorem foldl_mul_shift (l : List Int) (a : Int) :
    l.foldl (fun x y => x * y) a = a * l.foldl (fun x y => x * y) 1 := by
  induction l generalizing a with
  | nil => simp
  | cons b l ih =>
      simp only [List.foldl_cons]
      rw [ih (a * b), ih (1 * b)]
      ring

theorem prodDims_cons (a : Int) (l : List Int) :
    prodDims (a :: l) = a * prodDims l := by
  unfold prodDims
  simp only [List.foldl_cons]
  rw [foldl_mul_shift l (1 * a)]
  ring

theorem prodDims_nil : prodDims [] = 1 := rfl

theorem prodDims_eq_prod (l : List Int) : prodDims l = l.prod := by
  induction l with
  | nil => rfl
  | cons a l ih => rw [prodDims_cons, ih, List.prod_cons]

theorem prodDims_pos (l : List Int) (h : ∀ d ∈ l, 0 < d) : 0 < prodDims l := by
  induction l with
  | nil => exact Int.one_pos
  | cons a l ih =>
      rw [prodDims_cons]
      exact Int.mul_pos (h a (List.mem_cons_self a l))
        (ih (fun d hd => h d (List.mem_cons_of_mem a hd)))

theorem foldl_add_shift (l : List Int) (a : Int) :
    l.foldl (fun x y => x + y) a = a + l.foldl (fun x y => x + y) 0 := by
  induction l generalizing a with
  | nil => simp
  | cons b l ih =>
      simp only [List.foldl_cons]
      rw [ih (a + b), ih (0 + b)]
      ring

theorem locSum_nil (ix : List Int) : locSum [] ix = 0 := rfl

theorem locSum_cons (o i : Int) (os ix : List Int) :
    locSum (o :: os) (i :: ix) = o * i + locSum os ix := by
  unfold locSum
  simp only [List.zipWith_cons_cons, List.foldl_cons]
  rw [foldl_add_shift]
  ring

/-! ### Claim theorems: the concrete evaluations -/

/-- C1: evaluation of `accumulate_dim` at the failing input.  On the
one-element tensor holding 10, with addition as the operation and no weights,
the claim (the spec) requires the result `initial + 10`, i.e. `15` for
`initial = 5`; the code seeds the fold with `0` (`double v = 0;`,
tensor.h:203) and therefore returns `10` no matter what `initial` is. -/
theorem claim_C1_seed_ignored :
    accumulate_dim tensorC1 5 0 0 (fun a b => a + b) [] = some 10 ∧
    accumulate_dim tensorC1 0 0 0 (fun a b => a + b) [] = some 10 ∧
    accumulate_dim tensorC1 5 0 0 (fun a b => a + b) [] ≠ some 15 := by
  refine ⟨?_, ?_, ?_⟩ <;>
    simp [accumulate_dim, accGo, tensorC1, mkTensor, offsetsOf, prodDims, getI,
      getQ]

/-- C2: evaluation of scalar-left subtraction at the failing input.  For
`s = 5` and the one-element tensor holding `3`, the claim requires
`s - t = [2]`; the source (tensor.h:370, `return t-s;`) reorders the
subtraction and produces `[3 - 5] = [-2]`. -/
theorem claim_C2_scalar_sub_reordered :
    (scalar_minus_tensor 5 tensorC2).vec = [-2] ∧
    (scalar_minus_tensor 5 tensorC2).vec ≠ [2] := by
  refine ⟨?_, ?_⟩ <;> simp [scalar_minus_tensor, subS, tensorC2, mkTensor] <;>
    norm_num

/-- C3 counterexample: with the shape `[2,3,5]` of the claim, the innermost
axis has extent 5, so `transform_dim` with the 3-entry weight vector fails the
weight-size assert (WeightSizeError) instead of producing `[1, 4, 11]`; and
even on a shape whose innermost axis has size 3 (`[2,5,3]`), the three
elements become `[f(0,1), f(0,2), f(0,3)] = [1, 2, 3]`, not `[1, 4, 11]`,
because each element is updated from its own stored value and no accumulator
is carried between steps. -/
theorem claim_C3_counterexample :
    transform_dim (mkTensor [2, 3, 5]) 0 0 c3op [1, 2, 3] = none ∧
    (transform_dim (mkTensor [2, 5, 3]) 0 0 c3op [1, 2, 3]).map
        (fun r => r.vec.take 3) ≠ some [1, 4, 11] := by
  refine ⟨?_, ?_⟩ <;>
    simp [transform_dim, tdGo, mkTensor, offsetsOf, prodDims, getI, getQ, c3op,
      List.replicate, List.set]

/-- C3 amended: on the shape `[2,5,3]`, whose innermost axis has size 3 and
whose first three stored values are 0, `transform_dim` at offset 0 on axis 0
with `f(acc, w) = acc*2 + w` and weights `[1,2,3]` sets the three elements of
that line to `[f(0,1), f(0,2), f(0,3)] = [1, 2, 3]` in increasing step
order. -/
theorem claim_C3_amended :
    (transform_dim (mkTensor [2, 5, 3]) 0 0 c3op [1, 2, 3]).map
        (fun r => r.vec.take 3) = some [1, 2, 3] := by
  simp [transform_dim, tdGo, mkTensor, offsetsOf, prodDims, getI, getQ, c3op,
    List.replicate, List.set]

/-- C4 counterexample: construction with the shape `[0]` (which contains a
non-positive dimension) does not fail: it produces a Tensor whose `dim` is
`[0]`, with `nelem = 0` and an empty buffer.  No `InvalidShapeError` exists
anywhere in the constructor (tensor.h:82-95). -/
theorem claim_C4_counterexample :
    (mkTensor [0]).dim = [0] ∧ (mkTensor [0]).nelem = 0 ∧
      (mkTensor [0]).vec = [] := by
  refine ⟨rfl, by decide, rfl⟩

/-- C4 amended: construction performs no validation of the requested shape.
Every requested shape is accepted as-is: the produced Tensor stores the
requested `dim` unchanged and sets `nelem` to the product of the dims — in
particular a shape containing a dimension `0` yields a Tensor with
`nelem = 0` rather than an error. -/
theorem claim_C4_no_shape_validation (d : List Int) :
    (mkTensor d).dim = d ∧ (mkTensor d).nelem = prodDims d ∧
      (0 ∈ d → (mkTensor d).nelem = 0) := by
  refine ⟨rfl, rfl, fun h => ?_⟩
  show prodDims d = 0
  rw [prodDims_eq_prod]
  exact List.prod_eq_zero h

/-- Witness for C4: the concrete shape `[0, 3]` contains `0`, and the
constructed tensor has `nelem = 0`. -/
theorem claim_C4_no_shape_validation_witness :
    (0 : Int) ∈ [(0 : Int), 3] ∧ (mkTensor [0, 3]).nelem = 0 :=
  ⟨by decide, (claim_C4_no_shape_validation [0, 3]).2.2 (by decide)⟩

/-- C6: tensor-tensor `+`, `-` and `*` on tensors whose `dim` sequences
differ fail the shape assert (ShapeMismatchError): the model returns `none`
for all three operations.  The assert precedes any element write in the
source (tensor.h:281/287/293 and 321/328/335), so no partial mutation is
committed, and the operands — values in this model, with the compound forms
mutating only through the returned tensor — are left untouched. -/
theorem claim_C6_shape_mismatch (t u : Tensor) (h : t.dim ≠ u.dim) :
    addT t u = none ∧ subT t u = none ∧ mulT t u = none := by
  refine ⟨?_, ?_, ?_⟩ <;> simp [addT, subT, mulT, h]

/-- Witness for C6: tensors of shape `[2]` and `[3]`. -/
theorem claim_C6_shape_mismatch_witness :
    (mkTensor [2]).dim ≠ (mkTensor [3]).dim ∧
      (addT (mkTensor [2]) (mkTensor [3])) = none ∧
      (subT (mkTensor [2]) (mkTensor [3])) = none ∧
      (mulT (mkTensor [2]) (mkTensor [3])) = none := by
  have h : (mkTensor [2]).dim ≠ (mkTensor [3]).dim := by decide
  have hmain := claim_C6_shape_mismatch (mkTensor [2]) (mkTensor [3]) h
  exact ⟨h, hmain.1, hmain.2.1, hmain.2.2⟩

/-- C10: `max_dim` seeds its accumulator from the stored element at flat
offset 1 (`T v0 = vec[1];`, tensor.h:234).  On a well-formed tensor with
`nelem = 1` the buffer has exactly one element, so that read is out of
bounds: the model's checked access yields `none` before any reduction
happens. -/
theorem claim_C10_max_dim_seed_oob (t : Tensor) (axis : Int) (hwf : WF t)
    (h1 : t.nelem = 1) : max_dim t axis = none := by
  have hlen : t.vec.length = 1 := by
    rw [hwf.2.2, h1]
    rfl
  have hnone : t.vec[1]? = none := by
    rw [List.getElem?_eq_none]
    omega
  unfold max_dim
  rw [hnone]
  rfl

/-- Witness for C10: the one-element tensor of shape `[1]`. -/
theorem claim_C10_max_dim_seed_oob_witness :
    WF (mkTensor [1]) ∧ (mkTensor [1]).nelem = 1 ∧
      max_dim (mkTensor [1]) 0 = none :=
  ⟨by decide, by decide,
    claim_C10_max_dim_seed_oob (mkTensor [1]) 0 (by decide) (by decide)⟩
/-! ### The coordinate mapping: index and location are mutually inverse -/

theorem indexAux_spec (dims : List Int) (hpos : ∀ d ∈ dims, 0 < d) (x : Nat) :
    (indexAux dims (x : Int)).2 = ((x / (prodDims dims).toNat : Nat) : Int) ∧
    locSum (offsetsOf dims) (indexAux dims (x : Int)).1
        = ((x % (prodDims dims).toNat : Nat) : Int) ∧
    validCoordsB dims (indexAux dims (x : Int)).1 = true := by
  induction dims with
  | nil =>
      refine ⟨?_, ?_, rfl⟩
      · simp [indexAux, prodDims_nil]
      · simp [indexAux, offsetsOf, locSum_nil, prodDims_nil]
  | cons d rest ih =>
      have hd : 0 < d := hpos d (List.mem_cons_self d rest)
      have hrest : ∀ a ∈ rest, 0 < a := fun a ha => hpos a (List.mem_cons_of_mem d ha)
      have hP : 0 < prodDims rest := prodDims_pos rest hrest
      obtain ⟨dN, rfl⟩ := Int.eq_ofNat_of_zero_le hd.le
      have hdNpos : 0 < dN := by exact_mod_cast hd
      obtain ⟨ih2, ihsum, ihvalid⟩ := ih hrest
      have hPcast : prodDims rest = ((prodDims rest).toNat : Int) :=
        (Int.toNat_of_nonneg hP.le).symm
      have hcons : indexAux ((dN : Int) :: rest) (x : Int)
          = (Int.tmod (indexAux rest (x : Int)).2 (dN : Int)
               :: (indexAux rest (x : Int)).1,
             Int.tdiv ((indexAux rest (x : Int)).2
               - Int.tmod (indexAux rest (x : Int)).2 (dN : Int)) (dN : Int)) := rfl
      have hix : Int.tmod (indexAux rest (x : Int)).2 (dN : Int)
          = ((x / (prodDims rest).toNat % dN : Nat) : Int) := by
        rw [ih2, Int.tmod_eq_emod (Int.ofNat_nonneg _) (Int.ofNat_nonneg _),
          ← Int.ofNat_emod]
      have hprodN : (prodDims ((dN : Int) :: rest)).toNat
          = dN * (prodDims rest).toNat := by
        rw [prodDims_cons, hPcast, ← Int.ofNat_mul]
        simp only [Int.toNat_natCast]
      refine ⟨?_, ?_, ?_⟩
      · rw [hcons]
        show Int.tdiv _ _ = _
        rw [hix, ih2, ← Int.ofNat_sub (Nat.mod_le _ _),
          Int.tdiv_eq_ediv (Int.ofNat_nonneg _) (Int.ofNat_nonneg _),
          ← Int.ofNat_ediv, hprodN]
        have h1 := Nat.div_add_mod (x / (prodDims rest).toNat) dN
        have h2 : x / (prodDims rest).toNat - x / (prodDims rest).toNat % dN
            = dN * (x / (prodDims rest).toNat / dN) := by omega
        rw [h2, Nat.mul_div_cancel_left _ hdNpos, Nat.div_div_eq_div_mul,
          Nat.mul_comm dN (prodDims rest).toNat]
      · rw [hcons]
        show locSum (prodDims rest :: offsetsOf rest) _ = _
        rw [locSum_cons, hix, ihsum, hprodN]
        have hnat : (prodDims rest).toNat * (x / (prodDims rest).toNat % dN)
            + x % (prodDims rest).toNat
            = x % (dN * (prodDims rest).toNat) := by
          rw [Nat.mul_comm dN (prodDims rest).toNat, Nat.mod_mul]
          omega
        rw [← hnat, hPcast]
        simp only [Int.toNat_natCast]
        push_cast
        ring
      · rw [hcons]
        show (decide (0 ≤ Int.tmod (indexAux rest (x : Int)).2 (dN : Int))
            && decide (Int.tmod (indexAux rest (x : Int)).2 (dN : Int) < (dN : Int))
            && validCoordsB rest (indexAux rest (x : Int)).1) = true
        have hlt : ((x / (prodDims rest).toNat % dN : Nat) : Int) < (dN : Int) := by
          exact_mod_cast Nat.mod_lt _ hdNpos
        simp only [hix, ihvalid, Bool.and_eq_true, decide_eq_true_eq, Bool.and_true]
        exact ⟨Int.ofNat_nonneg _, hlt⟩

theorem locSum_valid_bounds (dims : List Int) :
    (∀ d ∈ dims, 0 < d) → ∀ c, validCoordsB dims c = true →
      0 ≤ locSum (offsetsOf dims) c ∧
        locSum (offsetsOf dims) c < prodDims dims := by
  induction dims with
  | nil =>
      intro _ c hc
      cases c with
      | nil => exact ⟨le_refl 0, Int.one_pos⟩
      | cons a l => simp [validCoordsB] at hc
  | cons d rest ih =>
      intro hpos c hc
      cases c with
      | nil => simp [validCoordsB] at hc
      | cons i cs =>
          have hd : 0 < d := hpos d (List.mem_cons_self d rest)
          have hrest : ∀ a ∈ rest, 0 < a :=
            fun a ha => hpos a (List.mem_cons_of_mem d ha)
          have hP : 0 < prodDims rest := prodDims_pos rest hrest
          simp only [validCoordsB, Bool.and_eq_true, decide_eq_true_eq] at hc
          obtain ⟨⟨hi0, hid⟩, hcs⟩ := hc
          obtain ⟨hs0, hsP⟩ := ih hrest cs hcs
          show 0 ≤ locSum (prodDims rest :: offsetsOf rest) (i :: cs) ∧
            locSum (prodDims rest :: offsetsOf rest) (i :: cs) < prodDims (d :: rest)
          rw [locSum_cons, prodDims_cons]
          constructor
          · exact add_nonneg (mul_nonneg hP.le hi0) hs0
          · have h1 : prodDims rest * (i + 1) = prodDims rest * i + prodDims rest := by
              ring
            have h2 : prodDims rest * (i + 1) ≤ prodDims rest * d :=
              mul_le_mul_of_nonneg_left (by omega) hP.le
            have h3 : d * prodDims rest = prodDims rest * d := mul_comm d (prodDims rest)
            linarith

theorem locSum_valid_inj (dims : List Int) :
    (∀ d ∈ dims, 0 < d) → ∀ c c', validCoordsB dims c = true →
      validCoordsB dims c' = true →
      locSum (offsetsOf dims) c = locSum (offsetsOf dims) c' → c = c' := by
  induction dims with
  | nil =>
      intro _ c c' hc hc' _
      cases c with
      | nil =>
          cases c' with
          | nil => rfl
          | cons a l => simp [validCoordsB] at hc'
      | cons a l => simp [validCoordsB] at hc
  | cons d rest ih =>
      intro hpos c c' hc hc' heq
      cases c with
      | nil => simp [validCoordsB] at hc
      | cons i cs =>
          cases c' with
          | nil => simp [validCoordsB] at hc'
          | cons j cs' =>
              have hd : 0 < d := hpos d (List.mem_cons_self d rest)
              have hrest : ∀ a ∈ rest, 0 < a :=
                fun a ha => hpos a (List.mem_cons_of_mem d ha)
              have hP : 0 < prodDims rest := prodDims_pos rest hrest
              simp only [validCoordsB, Bool.and_eq_true, decide_eq_true_eq] at hc hc'
              obtain ⟨⟨hi0, hid⟩, hcs⟩ := hc
              obtain ⟨⟨hj0, hjd⟩, hcs'⟩ := hc'
              obtain ⟨hs0, hsP⟩ := locSum_valid_bounds rest hrest cs hcs
              obtain ⟨ht0, htP⟩ := locSum_valid_bounds rest hrest cs' hcs'
              have heq2 : prodDims rest * i + locSum (offsetsOf rest) cs
                  = prodDims rest * j + locSum (offsetsOf rest) cs' := by
                have e1 : locSum (offsetsOf (d :: rest)) (i :: cs)
                    = prodDims rest * i + locSum (offsetsOf rest) cs := locSum_cons _ _ _ _
                have e2 : locSum (offsetsOf (d :: rest)) (j :: cs')
                    = prodDims rest * j + locSum (offsetsOf rest) cs' := locSum_cons _ _ _ _
                rw [← e1, ← e2]
                exact heq
              have hdvd : prodDims rest ∣
                  (locSum (offsetsOf rest) cs' - locSum (offsetsOf rest) cs) :=
                ⟨i - j, by linear_combination -heq2⟩
              have habs : |locSum (offsetsOf rest) cs' - locSum (offsetsOf rest) cs|
                  < prodDims rest := abs_lt.mpr ⟨by linarith, by linarith⟩
              have hzero := Int.eq_zero_of_abs_lt_dvd hdvd habs
              have hss : locSum (offsetsOf rest) cs = locSum (offsetsOf rest) cs' := by
                omega
              have hij : i = j := by
                have h3 : prodDims rest * i = prodDims rest * j := by linarith
                exact mul_left_cancel₀ (ne_of_gt hP) h3
              have htl : cs = cs' := ih hrest cs cs' hcs hcs' hss
              rw [hij, htl]

/-- C5: on a well-formed tensor with positive dims, `location` and `index`
are mutually inverse: `location(index(x)) = x` for every flat offset `x` in
`[0, nelem)`, and `index(location(c)) = c` for every coordinate tuple `c`
with every entry in `[0, dim[i])`. -/
theorem claim_C5_location_index_inverse (t : Tensor) (x : Int) (c : List Int)
    (hwf : WF t) (hpos : dimsPos t) (hx0 : 0 ≤ x) (hx1 : x < t.nelem)
    (hc : validCoordsB t.dim c = true) :
    location t (index t x) = x ∧ index t (location t c) = c := by
  obtain ⟨hoff, hnel, hlen⟩ := hwf
  have hposd : ∀ d ∈ t.dim, 0 < d := hpos
  constructor
  · obtain ⟨xN, rfl⟩ := Int.eq_ofNat_of_zero_le hx0
    obtain ⟨hq, hsum, hvalid⟩ := indexAux_spec t.dim hposd xN
    have hlt : xN < (prodDims t.dim).toNat := by
      rw [hnel] at hx1
      omega
    show locSum t.offsets (indexAux t.dim (xN : Int)).1 = (xN : Int)
    rw [hoff, hsum, Nat.mod_eq_of_lt hlt]
  · have hb := locSum_valid_bounds t.dim hposd c hc
    obtain ⟨hL0, hLP⟩ := hb
    obtain ⟨LN, hLN⟩ := Int.eq_ofNat_of_zero_le hL0
    obtain ⟨hq, hsum, hvalid⟩ := indexAux_spec t.dim hposd LN
    have hltN : LN < (prodDims t.dim).toNat := by omega
    have hsum2 : locSum (offsetsOf t.dim) (indexAux t.dim (LN : Int)).1
        = locSum (offsetsOf t.dim) c := by
      rw [hsum, Nat.mod_eq_of_lt hltN, ← hLN]
    have htc := locSum_valid_inj t.dim hposd _ c hvalid hc hsum2
    show (indexAux t.dim (location t c)).1 = c
    have hloc : location t c = (LN : Int) := by
      show locSum t.offsets c = _
      rw [hoff, ← hLN]
    rw [hloc]
    exact htc

/-- Witness for C5: the spec example, shape `[2,3,5]` with flat offset 28 and
coordinates `[1,2,3]`. -/
theorem claim_C5_location_index_inverse_witness :
    WF (mkTensor [2, 3, 5]) ∧ dimsPos (mkTensor [2, 3, 5]) ∧
      (0 : Int) ≤ 28 ∧ (28 : Int) < (mkTensor [2, 3, 5]).nelem ∧
      validCoordsB (mkTensor [2, 3, 5]).dim [1, 2, 3] = true ∧
      location (mkTensor [2, 3, 5]) (index (mkTensor [2, 3, 5]) 28) = 28 ∧
      index (mkTensor [2, 3, 5]) (location (mkTensor [2, 3, 5]) [1, 2, 3])
        = [1, 2, 3] := by
  have h := claim_C5_location_index_inverse (mkTensor [2, 3, 5]) 28 [1, 2, 3]
    (by decide) (by decide) (by decide) (by decide) (by decide)
  exact ⟨by decide, by decide, by decide, by decide, by decide, h.1, h.2⟩

/-! ### The plane enumeration: one entry point per line -/

theorem prodDims_append (l1 l2 : List Int) :
    prodDims (l1 ++ l2) = prodDims l1 * prodDims l2 := by
  induction l1 with
  | nil => simp [prodDims_nil]
  | cons a l ih => rw [List.cons_append, prodDims_cons, prodDims_cons, ih]; ring

theorem toNat_mul_of_nonneg (a b : Int) (ha : 0 ≤ a) (hb : 0 ≤ b) :
    (a * b).toNat = a.toNat * b.toNat := by
  obtain ⟨aN, rfl⟩ := Int.eq_ofNat_of_zero_le ha
  obtain ⟨bN, rfl⟩ := Int.eq_ofNat_of_zero_le hb
  rw [← Int.ofNat_mul]
  rfl

theorem index_digit (dims : List Int) :
    (∀ d ∈ dims, 0 < d) → ∀ (x : Nat) (j : Nat), j < dims.length →
      (indexAux dims (x : Int)).1.getD j 0
        = ((x / (prodDims (dims.drop (j + 1))).toNat
            % (dims.getD j 0).toNat : Nat) : Int) := by
  induction dims with
  | nil => intro _ x j h; simp at h
  | cons d rest ih =>
      intro hpos x j hj
      have hd : 0 < d := hpos d (List.mem_cons_self d rest)
      have hrest : ∀ a ∈ rest, 0 < a :=
        fun a ha => hpos a (List.mem_cons_of_mem d ha)
      cases j with
      | zero =>
          obtain ⟨hq, _, _⟩ := indexAux_spec rest hrest x
          show Int.tmod (indexAux rest (x : Int)).2 d = _
          obtain ⟨dN, rfl⟩ := Int.eq_ofNat_of_zero_le hd.le
          rw [hq, Int.tmod_eq_emod (Int.ofNat_nonneg _) (Int.ofNat_nonneg _),
            ← Int.ofNat_emod]
          simp [Int.toNat_natCast]
      | succ j =>
          show (indexAux rest (x : Int)).1.getD j 0 = _
          rw [ih hrest x j (by simpa using hj)]
          simp

theorem countP_range_lt (c n : Nat) :
    List.countP (fun x => decide (x < c)) (List.range n) = min c n := by
  induction n with
  | zero => simp
  | succ n ih =>
      rw [List.range_succ, List.countP_append, ih]
      by_cases h : n < c
      · simp [List.countP_cons, h]
        omega
      · simp [List.countP_cons, h]
        omega

theorem countP_digit_zero_range (dd off m : Nat) (hd : 0 < dd) (hoff : 0 < off) :
    List.countP (fun x => decide (x / off % dd = 0)) (List.range (m * (dd * off)))
      = m * off := by
  induction m with
  | zero => simp
  | succ m ih =>
      have hsplit : (m + 1) * (dd * off) = m * (dd * off) + dd * off := by ring
      rw [hsplit, List.range_add, List.countP_append, ih, List.countP_map]
      have h1 : List.countP
          ((fun x => decide (x / off % dd = 0)) ∘ (fun x => m * (dd * off) + x))
          (List.range (dd * off))
          = List.countP (fun x => decide (x < off)) (List.range (dd * off)) := by
        apply List.countP_congr
        intro x hx
        rw [List.mem_range] at hx
        simp only [Function.comp_apply, decide_eq_true_eq]
        have e1 : (m * (dd * off) + x) / off = x / off + m * dd := by
          rw [show m * (dd * off) + x = x + (m * dd) * off by ring]
          exact Nat.add_mul_div_right x (m * dd) hoff
        have e2 : (x / off + m * dd) % dd = x / off % dd :=
          Nat.add_mul_mod_self_right _ _ _
        rw [e1, e2]
        have hxlt : x / off < dd :=
          Nat.div_lt_of_lt_mul (by rw [Nat.mul_comm off dd]; exact hx)
        rw [Nat.mod_eq_of_lt hxlt, Nat.div_eq_zero_iff hoff]
      rw [h1, countP_range_lt]
      have hle : off ≤ dd * off := Nat.le_mul_of_pos_left off hd
      rw [Nat.min_eq_left hle]
      ring

/-- C7: on a well-formed tensor with positive dims and a valid axis (counted
from the right), `plane(axis)` has exactly `nelem / dim[rank-1-axis]` entries
(one entry point per line parallel to that axis). -/
theorem claim_C7_plane_length (t : Tensor) (axis : Int) (hwf : WF t)
    (hpos : dimsPos t) (hax0 : 0 ≤ axis) (hax1 : axis < (t.dim.length : Int)) :
    ((plane t axis 0).length : Int)
      = t.nelem / getI t.dim ((t.dim.length : Int) - 1 - axis) := by
  obtain ⟨hoff, hnel, hlen⟩ := hwf
  have hposd : ∀ d ∈ t.dim, 0 < d := hpos
  have hjL : ((t.dim.length : Int) - 1 - axis).toNat < t.dim.length := by omega
  have hgetD : t.dim.getD ((t.dim.length : Int) - 1 - axis).toNat 0
      = t.dim.get ⟨((t.dim.length : Int) - 1 - axis).toNat, hjL⟩ := by
    rw [List.getD_eq_getElem?_getD, List.getElem?_eq_getElem hjL]
    rfl
  have hdj_pos : 0 < t.dim.getD ((t.dim.length : Int) - 1 - axis).toNat 0 := by
    rw [hgetD]
    exact hposd _ (List.get_mem t.dim _ hjL)
  have hoff_pos : 0 < prodDims
      (t.dim.drop (((t.dim.length : Int) - 1 - axis).toNat + 1)) :=
    prodDims_pos _ (fun d hd => hposd d (List.mem_of_mem_drop hd))
  have hpre_pos : 0 < prodDims
      (t.dim.take (((t.dim.length : Int) - 1 - axis).toNat)) :=
    prodDims_pos _ (fun d hd => hposd d (List.mem_of_mem_take hd))
  have hsplit : prodDims t.dim
      = prodDims (t.dim.take (((t.dim.length : Int) - 1 - axis).toNat))
        * (t.dim.getD ((t.dim.length : Int) - 1 - axis).toNat 0
           * prodDims (t.dim.drop (((t.dim.length : Int) - 1 - axis).toNat + 1))) := by
    conv_lhs =>
      rw [← List.take_append_drop (((t.dim.length : Int) - 1 - axis).toNat) t.dim]
    rw [prodDims_append, List.drop_eq_getElem_cons hjL, prodDims_cons, hgetD]
    rfl
  have hplen : (plane t axis 0).length
      = List.countP
          (fun i : Nat => decide (getI (index t (i : Int))
            ((t.dim.length : Int) - 1 - axis) = 0))
          (List.range t.nelem.toNat) := by
    simp only [plane]
    rw [List.length_map, ← List.countP_eq_length_filter]
  have hcount : List.countP
      (fun i : Nat => decide (getI (index t (i : Int))
        ((t.dim.length : Int) - 1 - axis) = 0))
      (List.range t.nelem.toNat)
      = List.countP
          (fun i : Nat => decide (i
            / (prodDims (t.dim.drop (((t.dim.length : Int) - 1 - axis).toNat + 1))).toNat
            % (t.dim.getD ((t.dim.length : Int) - 1 - axis).toNat 0).toNat = 0))
          (List.range t.nelem.toNat) := by
    apply List.countP_congr
    intro i _
    simp only [decide_eq_true_eq]
    show (indexAux t.dim (i : Int)).1.getD
        ((t.dim.length : Int) - 1 - axis).toNat 0 = 0 ↔ _
    rw [index_digit t.dim hposd i _ hjL]
    exact Int.ofNat_eq_zero
  have hnelemN : t.nelem.toNat
      = (prodDims (t.dim.take (((t.dim.length : Int) - 1 - axis).toNat))).toNat
        * ((t.dim.getD ((t.dim.length : Int) - 1 - axis).toNat 0).toNat
           * (prodDims (t.dim.drop (((t.dim.length : Int) - 1 - axis).toNat + 1))).toNat) := by
    rw [hnel, hsplit,
      toNat_mul_of_nonneg _ _ hpre_pos.le (mul_nonneg hdj_pos.le hoff_pos.le),
      toNat_mul_of_nonneg _ _ hdj_pos.le hoff_pos.le]
  rw [hplen, hcount, hnelemN,
    countP_digit_zero_range _ _ _ (by omega) (by omega)]
  show _ = t.nelem / t.dim.getD ((t.dim.length : Int) - 1 - axis).toNat 0
  rw [hnel, hsplit,
    show prodDims (t.dim.take (((t.dim.length : Int) - 1 - axis).toNat))
        * (t.dim.getD ((t.dim.length : Int) - 1 - axis).toNat 0
           * prodDims (t.dim.drop (((t.dim.length : Int) - 1 - axis).toNat + 1)))
      = t.dim.getD ((t.dim.length : Int) - 1 - axis).toNat 0
        * (prodDims (t.dim.take (((t.dim.length : Int) - 1 - axis).toNat))
           * prodDims (t.dim.drop (((t.dim.length : Int) - 1 - axis).toNat + 1)))
      from by ring,
    Int.mul_ediv_cancel_left _ (ne_of_gt hdj_pos),
    Int.ofNat_mul, Int.toNat_of_nonneg hpre_pos.le, Int.toNat_of_nonneg hoff_pos.le]

/-- Witness for C7: shape `[2,3,5]`, axis 0 (innermost): 6 entry points,
`30 / 5 = 6`. -/
theorem claim_C7_plane_length_witness :
    WF (mkTensor [2, 3, 5]) ∧ dimsPos (mkTensor [2, 3, 5]) ∧
      (0 : Int) ≤ 0 ∧ (0 : Int) < ((mkTensor [2, 3, 5]).dim.length : Int) ∧
      ((plane (mkTensor [2, 3, 5]) 0 0).length : Int)
        = (mkTensor [2, 3, 5]).nelem
          / getI (mkTensor [2, 3, 5]).dim
              (((mkTensor [2, 3, 5]).dim.length : Int) - 1 - 0) :=
  ⟨by decide, by decide, by decide, by decide,
    claim_C7_plane_length (mkTensor [2, 3, 5]) 0 (by decide) (by decide)
      (by decide) (by decide)⟩

/-! ### Replication along a new innermost axis -/

theorem writeSeq_length (vals : List Rat) : ∀ (dst : List Rat) (s : Nat),
    (writeSeq dst s vals).length = dst.length := by
  induction vals with
  | nil => intro dst s; rfl
  | cons x rest ih =>
      intro dst s
      show (writeSeq (dst.set s x) (s + 1) rest).length = _
      rw [ih]
      simp

theorem writeSeq_getElem_lt (vals : List Rat) : ∀ (dst : List Rat) (s k : Nat),
    k < s → (writeSeq dst s vals)[k]? = dst[k]? := by
  induction vals with
  | nil => intro dst s k _; rfl
  | cons x rest ih =>
      intro dst s k hk
      show (writeSeq (dst.set s x) (s + 1) rest)[k]? = _
      rw [ih _ _ _ (by omega), List.getElem?_set_ne (by omega)]

theorem writeSeq_getElem (vals : List Rat) : ∀ (dst : List Rat) (s k : Nat),
    s + vals.length ≤ dst.length → k < vals.length →
    (writeSeq dst s vals)[s + k]? = vals[k]? := by
  induction vals with
  | nil => intro dst s k _ hk; simp at hk
  | cons x rest ih =>
      intro dst s k hlen hk
      simp only [List.length_cons] at hlen
      show (writeSeq (dst.set s x) (s + 1) rest)[s + k]? = _
      cases k with
      | zero =>
          rw [writeSeq_getElem_lt rest _ _ _ (by omega)]
          simp only [Nat.add_zero]
          rw [List.getElem?_set_self (by omega), List.getElem?_cons_zero]
      | succ k =>
          have hidx : s + (k + 1) = (s + 1) + k := by omega
          rw [hidx, ih (dst.set s x) (s + 1) k (by simp; omega)
            (by simp only [List.length_cons] at hk; omega),
            List.getElem?_cons_succ]

theorem flatMap_replicate_length (f : Nat → Rat) (nN : Nat) : ∀ N : Nat,
    ((List.range N).flatMap (fun i => List.replicate nN (f i))).length
      = N * nN := by
  intro N
  induction N with
  | zero => simp
  | succ N ih =>
      rw [List.range_succ, List.flatMap_append, List.length_append, ih]
      simp only [List.flatMap_cons, List.flatMap_nil, List.append_nil,
        List.length_replicate]
      ring

theorem flatMap_replicate_getElem (f : Nat → Rat) (nN : Nat) :
    ∀ (N iN jN : Nat), iN < N → jN < nN →
    ((List.range N).flatMap (fun i => List.replicate nN (f i)))[iN * nN + jN]?
      = some (f iN) := by
  intro N
  induction N with
  | zero => intro iN jN h _; omega
  | succ N ih =>
      intro iN jN hi hj
      rw [List.range_succ, List.flatMap_append]
      by_cases hiN : iN < N
      · have h1 : (iN + 1) * nN ≤ N * nN :=
          Nat.mul_le_mul_right nN (by omega)
        have h2 : iN * nN + jN < (iN + 1) * nN := by
          have he : (iN + 1) * nN = iN * nN + nN := by ring
          omega
        rw [List.getElem?_append_left (by
          rw [flatMap_replicate_length]
          exact lt_of_lt_of_le h2 h1)]
        exact ih iN jN hiN hj
      · have hiN2 : iN = N := by omega
        subst hiN2
        rw [List.getElem?_append_right (by
          rw [flatMap_replicate_length]
          exact Nat.le_add_right _ _)]
        rw [flatMap_replicate_length, Nat.add_sub_cancel_left]
        simp [List.getElem?_replicate_of_lt hj]

/-- C8: `repeat_inner(n)` on a well-formed tensor with positive dims and
`n ≥ 1` returns a tensor whose shape is `dim` with a new innermost axis of
size `n` appended, whose element count is `nelem * n`, and whose element at
flat offset `i*n + j` (for `i < nelem`, `j < n`) equals the original element
at flat offset `i`.  `repeat_inner` is `const` in the source and the model is
a pure function of `t`, so the original tensor is unmodified. -/
theorem claim_C8_repeat_inner (t : Tensor) (n i j : Int) (hwf : WF t)
    (hpos : dimsPos t) (hn : 1 ≤ n) (hi0 : 0 ≤ i) (hi1 : i < t.nelem)
    (hj0 : 0 ≤ j) (hj1 : j < n) :
    (repeat_inner t n).dim = t.dim ++ [n] ∧
    (repeat_inner t n).nelem = t.nelem * n ∧
    (((repeat_inner t n).vec.length : Int) = t.nelem * n ∧
      getQ (repeat_inner t n).vec (i * n + j) = getQ t.vec i) := by
  obtain ⟨hoff, hnel, hlen⟩ := hwf
  have hNpos : 0 < prodDims t.dim := prodDims_pos _ hpos
  have hprod_new : prodDims (t.dim ++ [n]) = prodDims t.dim * n := by
    rw [prodDims_append, prodDims_cons, prodDims_nil]
    ring
  obtain ⟨nN, rfl⟩ := Int.eq_ofNat_of_zero_le (by omega : (0 : Int) ≤ n)
  obtain ⟨iN, rfl⟩ := Int.eq_ofNat_of_zero_le hi0
  obtain ⟨jN, rfl⟩ := Int.eq_ofNat_of_zero_le hj0
  have htoutlen : (List.replicate (prodDims (t.dim ++ [(nN : Int)])).toNat
      (0 : Rat)).length = t.nelem.toNat * nN := by
    rw [List.length_replicate, hprod_new, ← hnel,
      toNat_mul_of_nonneg _ _ (by omega) (by omega)]
    simp [Int.toNat_natCast]
  refine ⟨rfl, ?_, ?_, ?_⟩
  · show prodDims (t.dim ++ [(nN : Int)]) = t.nelem * (nN : Int)
    rw [hprod_new, hnel]
  · show ((writeSeq (List.replicate (prodDims (t.dim ++ [(nN : Int)])).toNat 0)
        0 ((List.range t.nelem.toNat).flatMap
          (fun i => List.replicate (Int.toNat (nN : Int))
            (t.vec.getD i 0)))).length : Int) = t.nelem * (nN : Int)
    rw [writeSeq_length, htoutlen]
    push_cast
    rw [Int.toNat_of_nonneg (by omega : (0 : Int) ≤ t.nelem)]
  · have hiN : iN < t.nelem.toNat := by omega
    have hjN : jN < nN := by exact_mod_cast hj1
    have hidx : ((iN : Int) * (nN : Int) + (jN : Int)).toNat = iN * nN + jN := by
      rw [← Int.ofNat_mul, ← Int.ofNat_add]
      rfl
    show getQ (writeSeq (List.replicate
        (prodDims (t.dim ++ [(nN : Int)])).toNat 0) 0
        ((List.range t.nelem.toNat).flatMap
          (fun i => List.replicate (Int.toNat (nN : Int))
            (t.vec.getD i 0)))) ((iN : Int) * (nN : Int) + (jN : Int))
      = getQ t.vec (iN : Int)
    unfold getQ
    simp only [Int.toNat_natCast]
    rw [hidx]
    rw [List.getD_eq_getElem?_getD, List.getD_eq_getElem?_getD]
    have hwrite := writeSeq_getElem
      ((List.range t.nelem.toNat).flatMap
        (fun i => List.replicate nN (t.vec.getD i 0)))
      (List.replicate (prodDims (t.dim ++ [(nN : Int)])).toNat 0)
      0 (iN * nN + jN)
      (by rw [flatMap_replicate_length (fun i => t.vec.getD i 0), htoutlen]
          omega)
      (by rw [flatMap_replicate_length (fun i => t.vec.getD i 0)]
          have h1 : (iN + 1) * nN ≤ t.nelem.toNat * nN :=
            Nat.mul_le_mul_right nN (by omega)
          have h2 : iN * nN + jN < (iN + 1) * nN := by
            have he : (iN + 1) * nN = iN * nN + nN := by ring
            omega
          exact lt_of_lt_of_le h2 h1)
    rw [Nat.zero_add] at hwrite
    rw [hwrite, flatMap_replicate_getElem (fun i => t.vec.getD i 0)
      nN t.nelem.toNat iN jN hiN hjN, ← List.getD_eq_getElem?_getD]
    rfl

/-- Witness for C8: the tensor `[7, 9]` of shape `[2]` repeated 3 times;
output offset `1*3 + 2 = 5` holds the original element at offset 1. -/
theorem claim_C8_repeat_inner_witness :
    WF tensorC8 ∧ dimsPos tensorC8 ∧ (1 : Int) ≤ 3 ∧ (0 : Int) ≤ 1 ∧
      (1 : Int) < tensorC8.nelem ∧ (0 : Int) ≤ 2 ∧ (2 : Int) < 3 ∧
      ((repeat_inner tensorC8 3).dim = tensorC8.dim ++ [3] ∧
        (repeat_inner tensorC8 3).nelem = tensorC8.nelem * 3 ∧
        (((repeat_inner tensorC8 3).vec.length : Int) = tensorC8.nelem * 3 ∧
          getQ (repeat_inner tensorC8 3).vec (1 * 3 + 2) = getQ tensorC8.vec 1)) :=
  ⟨by decide, by decide, by decide, by decide, by decide, by decide, by decide,
    claim_C8_repeat_inner tensorC8 3 1 2 (by decide) (by decide) (by decide)
      (by decide) (by decide) (by decide) (by decide)⟩

/-! ### In-place operations never change the shape -/

theorem tdGo_length (op : Rat → Rat → Rat) (w : List Rat) (off : Int) :
    ∀ (steps : Nat) (i : Int) (count : Nat) (vec : List Rat),
      (tdGo op w off steps i count vec).length = vec.length := by
  intro steps
  induction steps with
  | zero => intro i count vec; rfl
  | succ steps ih =>
      intro i count vec
      show (tdGo op w off steps (i + off) (count + 1)
        (vec.set i.toNat (op (getQ vec i) (w.getD count 0)))).length = _
      rw [ih]
      simp

theorem sameShapeB_refl (t : Tensor) : sameShapeB t t = true := by
  simp [sameShapeB]

theorem sameShapeB_trans (a b c : Tensor) (h1 : sameShapeB a b = true)
    (h2 : sameShapeB b c = true) : sameShapeB a c = true := by
  simp only [sameShapeB, Bool.and_eq_true, decide_eq_true_eq] at h1 h2 ⊢
  obtain ⟨⟨⟨d1, o1⟩, n1⟩, v1⟩ := h1
  obtain ⟨⟨⟨d2, o2⟩, n2⟩, v2⟩ := h2
  exact ⟨⟨⟨d1.trans d2, o1.trans o2⟩, n1.trans n2⟩, v1.trans v2⟩

theorem transform_dim_shape (t : Tensor) (loc axis : Int)
    (op : Rat → Rat → Rat) (w : List Rat) (r : Tensor)
    (h : transform_dim t loc axis op w = some r) : sameShapeB r t = true := by
  unfold transform_dim at h
  dsimp only at h
  split at h
  · have hr : r = { t with
        vec := tdGo op w (getI t.offsets ((t.dim.length : Int) - 1 - axis))
          (getI t.dim ((t.dim.length : Int) - 1 - axis)).toNat loc 0 t.vec } := by
      cases h
      rfl
    subst hr
    simp [sameShapeB, tdGo_length]
  · cases h

theorem foldlM_transform_dim_shape (axis : Int) (op : Rat → Rat → Rat)
    (w : List Rat) : ∀ (locs : List Int) (t r : Tensor),
      locs.foldlM (fun acc loc => transform_dim acc loc axis op w) t = some r →
      sameShapeB r t = true := by
  intro locs
  induction locs with
  | nil =>
      intro t r h
      have hr : r = t := by
        simp [List.foldlM] at h
        exact h.symm
      rw [hr]
      exact sameShapeB_refl t
  | cons l ls ih =>
      intro t r h
      rw [List.foldlM_cons] at h
      obtain ⟨t1, h1, h2⟩ := Option.bind_eq_some.mp h
      exact sameShapeB_trans r t1 t (ih t1 r h2)
        (transform_dim_shape t l axis op w t1 h1)

theorem addT_shape (t u r : Tensor) (hwt : WF t) (hwu : WF u)
    (h : addT t u = some r) : sameShapeB r t = true := by
  unfold addT at h
  split at h
  · next hdim =>
      have hr : r = { t with vec := List.zipWith (fun x y => x + y) t.vec u.vec } := by
        cases h
        rfl
      subst hr
      have hul : u.vec.length = t.vec.length := by
        rw [hwu.2.2, hwt.2.2, hwu.2.1, hwt.2.1, hdim]
      simp [sameShapeB, List.length_zipWith, hul]
  · cases h

theorem subT_shape (t u r : Tensor) (hwt : WF t) (hwu : WF u)
    (h : subT t u = some r) : sameShapeB r t = true := by
  unfold subT at h
  split at h
  · next hdim =>
      have hr : r = { t with vec := List.zipWith (fun x y => x - y) t.vec u.vec } := by
        cases h
        rfl
      subst hr
      have hul : u.vec.length = t.vec.length := by
        rw [hwu.2.2, hwt.2.2, hwu.2.1, hwt.2.1, hdim]
      simp [sameShapeB, List.length_zipWith, hul]
  · cases h

theorem mulT_shape (t u r : Tensor) (hwt : WF t) (hwu : WF u)
    (h : mulT t u = some r) : sameShapeB r t = true := by
  unfold mulT at h
  split at h
  · next hdim =>
      have hr : r = { t with vec := List.zipWith (fun x y => x * y) t.vec u.vec } := by
        cases h
        rfl
      subst hr
      have hul : u.vec.length = t.vec.length := by
        rw [hwu.2.2, hwt.2.2, hwu.2.1, hwt.2.1, hdim]
      simp [sameShapeB, List.length_zipWith, hul]
  · cases h

/-- C9: every in-place operation preserves `dim`, `offsets`, `nelem` and the
buffer length, mutating only element values: `transform` (whenever it
succeeds), the compound tensor-tensor operators on matching shapes (whenever
they succeed), and all four compound tensor-scalar operators.  The shape of a
tensor never changes after construction. -/
theorem claim_C9_inplace_shape_invariant (t u : Tensor) (s : Rat)
    (axis : Int) (op : Rat → Rat → Rat) (w : List Rat)
    (hwt : WF t) (hwu : WF u) :
    (transform t axis op w).all (fun r => sameShapeB r t) = true ∧
    (addT t u).all (fun r => sameShapeB r t) = true ∧
    (subT t u).all (fun r => sameShapeB r t) = true ∧
    (mulT t u).all (fun r => sameShapeB r t) = true ∧
    (sameShapeB (addS t s) t = true ∧ sameShapeB (subS t s) t = true ∧
      sameShapeB (mulS t s) t = true ∧ sameShapeB (divS t s) t = true) := by
  refine ⟨?_, ?_, ?_, ?_, ?_, ?_, ?_, ?_⟩
  · cases h : transform t axis op w with
    | none => rfl
    | some r =>
        have := foldlM_transform_dim_shape axis op w (plane t axis 0) t r h
        simp [Option.all, this]
  · cases h : addT t u with
    | none => rfl
    | some r =>
        have := addT_shape t u r hwt hwu h
        simp [Option.all, this]
  · cases h : subT t u with
    | none => rfl
    | some r =>
        have := subT_shape t u r hwt hwu h
        simp [Option.all, this]
  · cases h : mulT t u with
    | none => rfl
    | some r =>
        have := mulT_shape t u r hwt hwu h
        simp [Option.all, this]
  · simp [sameShapeB, addS]
  · simp [sameShapeB, subS]
  · simp [sameShapeB, mulS]
  · simp [sameShapeB, divS]

/-- Witness for C9: two well-formed tensors of shape `[2]`, scalar 1,
axis 0, addition, weights `[1, 1]`. -/
theorem claim_C9_inplace_shape_invariant_witness :
    WF (mkTensor [2]) ∧
      ((transform (mkTensor [2]) 0 (fun a b => a + b) [1, 1]).all
          (fun r => sameShapeB r (mkTensor [2])) = true ∧
        (addT (mkTensor [2]) (mkTensor [2])).all
          (fun r => sameShapeB r (mkTensor [2])) = true ∧
        (subT (mkTensor [2]) (mkTensor [2])).all
          (fun r => sameShapeB r (mkTensor [2])) = true ∧
        (mulT (mkTensor [2]) (mkTensor [2])).all
          (fun r => sameShapeB r (mkTensor [2])) = true ∧
        (sameShapeB (addS (mkTensor [2]) 1) (mkTensor [2]) = true ∧
          sameShapeB (subS (mkTensor [2]) 1) (mkTensor [2]) = true ∧
          sameShapeB (mulS (mkTensor [2]) 1) (mkTensor [2]) = true ∧
          sameShapeB (divS (mkTensor [2]) 1) (mkTensor [2]) = true)) :=
  ⟨by decide,
    claim_C9_inplace_shape_invariant (mkTensor [2]) (mkTensor [2]) 1 0
      (fun a b => a + b) [1, 1] (by decide) (by decide)⟩
